import Mathlib

/-!
Verification of `vinaigrette/management/commands/makemessages.py`.

The command wraps Django's `makemessages`: it writes distinct non-empty
database field values into a synthetic Python source file
(`makemessages-temp-file.py`), runs the framework extractor over it, and
then rewrites the generated `.po` catalog files, replacing references to
the synthetic file's line numbers by descriptive `model/field:id`
references, dropping a spurious `#, python-format` flag on database
strings, and optionally keeping obsolete (`#~ `) entries alive.

Strings are modelled as lists of characters (`Str`), mirroring Python
`str` as a sequence of code points.
-/

namespace Vinaigrette

/-- Python strings as lists of code points. -/
abbrev Str := List Char

/-- `Command.TEMP_FILE_NAME`, the name of the synthetic source file. -/
def TEMP_FILE_NAME : Str := "makemessages-temp-file.py".data

/-- Outcome of Python `int(instance.pk)` in `create_tmp_file`: either the
primary key converts to an integer, or the conversion raises
`ValueError` / `TypeError`. -/
inductive Pk where
  | intPk (n : Int)
  | nonIntPk
deriving DecidableEq, Repr

/-- The `idnum` computed in `create_tmp_file`: `int(instance.pk)`, with the
exception handler assigning `0`. -/
def pkToId : Pk → Int
  | Pk.intPk n => n
  | Pk.nonIntPk => 0

/-- A model instance as observed by `create_tmp_file`: its primary key and
the `getattr(instance, field)` lookup on field or property names.  A
missing / `None` / empty value is the empty string (all are falsy in the
`if val` test of the source). -/
structure Instance where
  pk : Pk
  attr : Str → Str

/-- One entry of `vinaigrette._registry` together with the queryset
`manager ... order_by('pk')` already evaluated to a list of instances
(the database and the ORM are external to this program). -/
structure ModelReg where
  appLabel : Str
  objectName : Str
  fields : List Str
  propertyNames : List Str
  instances : List Instance

/-- `'{}.{}'.format(model._meta.app_label, model._meta.object_name)`. -/
def modelName (m : ModelReg) : Str := m.appLabel ++ ".".data ++ m.objectName

/-- The field list iterated per instance: `fields += properties.keys()`. -/
def allFields (m : ModelReg) : List Str := m.fields ++ m.propertyNames

/-- One string recorded by `create_tmp_file`: the components of the
descriptive reference `'{}/{}:{}'.format(modelname, field, idnum)`
appended to `po_file_sources`, together with the raw database value. -/
structure Entry where
  model : Str
  field : Str
  idval : Int
  value : Str
deriving DecidableEq, Repr

/-- The reference string `'{}/{}:{}'.format(modelname, field, idnum)`. -/
def Entry.source (e : Entry) : Str :=
  e.model ++ "/".data ++ e.field ++ ":".data ++ (toString e.idval).data

/-- `val.replace('\r', '')`. -/
def removeCR (cs : Str) : Str := cs.filter (fun c => c ≠ '\r')

/-- `val.replace('%', '%%')`. -/
def doublePercent : Str → Str
  | [] => []
  | c :: cs => if c = '%' then '%' :: '%' :: doublePercent cs else c :: doublePercent cs

/-- The transformation applied to a value before it is written to the
synthetic file: `val.replace('\r', '').replace('%', '%%')`. -/
def sanitize (v : Str) : Str := doublePercent (removeCR v)

/-- The inner loop of `create_tmp_file` over the field names of one
instance, threading the per-model `strings_seen` set (modelled as a list
queried by membership): a value is recorded when it is truthy and not yet
seen. -/
def procInstFields (mn : Str) (idn : Int) (inst : Instance) :
    List Str → List Str → List Entry × List Str
  | [], seen => ([], seen)
  | f :: fs, seen =>
    let v := inst.attr f
    if v ≠ [] ∧ v ∉ seen then
      let r := procInstFields mn idn inst fs (v :: seen)
      (⟨mn, f, idn, v⟩ :: r.1, r.2)
    else
      procInstFields mn idn inst fs seen

/-- The loop of `create_tmp_file` over the instances of one model,
threading `strings_seen`. -/
def procInstances (mn : Str) (fs : List Str) :
    List Instance → List Str → List Entry × List Str
  | [], seen => ([], seen)
  | i :: is, seen =>
    let r := procInstFields mn (pkToId i.pk) i fs seen
    let r2 := procInstances mn fs is r.2
    (r.1 ++ r2.1, r2.2)

/-- All entries recorded for one model (`strings_seen` starts empty for
each model). -/
def processModel (m : ModelReg) : List Entry :=
  (procInstances (modelName m) (allFields m) m.instances []).1

/-- Lexicographic comparison of strings by code point, as Python `<=` on
`str` (used by `sorted(..., key=lambda m: m._meta.object_name)`). -/
def strLe : Str → Str → Bool
  | [], _ => true
  | _ :: _, [] => false
  | c :: cs, d :: ds => if c = d then strLe cs ds else decide (c < d)

/-- `sorted(vinaigrette._registry.keys(), key=lambda m: m._meta.object_name)`:
a stable sort by object name (Python's sort is stable; insertion sort with
a total relation is stable). -/
def sortModels (ms : List ModelReg) : List ModelReg :=
  ms.insertionSort (fun a b => strLe a.objectName b.objectName = true)

/-- All entries recorded by `create_tmp_file`, over the sorted models.
Entry `k` (0-based) corresponds to the `ugettext(...)` call written on
line `3 + k` of the synthetic file (after the two header lines). -/
def createEntries (ms : List ModelReg) : List Entry :=
  (sortModels ms).flatMap processModel

/-- The final value of `po_file_sources`: three reserved elements (for the
two header lines and the nonexistent line 0) followed by the reference
recorded for each written string, so index `N` holds the reference for
the string written on line `N` of the synthetic file. -/
def pyFileSources (ms : List ModelReg) : List Str :=
  [] :: [] :: [] :: (createEntries ms).map Entry.source

/-- The string values as written into the synthetic file (arguments of
the generated `ugettext(...)` calls): the stored values after
`sanitize`. -/
def writtenValues (ms : List ModelReg) : List Str :=
  (createEntries ms).map (fun e => sanitize e.value)

/-! ## `update_po_references`: rewriting the catalog files -/

/-- Parsing a nonempty run of decimal digits, as Python `int` on the
captured group of `(\d+)`. -/
def digitsToNat (ds : Str) : Nat :=
  ds.foldl (fun a c => 10 * a + (c.toNat - 48)) 0

/-- The literal part of the pattern
`re.compile(r'{!s}:(\d+)'.format(re.escape(self.TEMP_FILE_NAME)))`. -/
def tempPat : Str := TEMP_FILE_NAME ++ ":".data

/-- Does `tempPat` followed by at least one digit match at the head of
`cs`?  On success, returns the (greedy, maximal) digit group and the rest
of the input after the match, as the regex engine does. -/
def tempRefMatch (cs : Str) : Option (Str × Str) :=
  if tempPat.isPrefixOf cs then
    let r0 := cs.drop tempPat.length
    let ds := r0.takeWhile Char.isDigit
    if ds = [] then none else some (ds, r0.dropWhile Char.isDigit)
  else none

/-- `replace_line_reference`: the replacement for one match, given the
digit group.  `po_file_sources[int(...)]` when the index is in range,
otherwise (`IndexError`) the matched text itself. -/
def replaceRef (sources : List Str) (ds : Str) : Str :=
  let n := digitsToNat ds
  if h : n < sources.length then sources.get ⟨n, h⟩ else tempPat ++ ds

/-- Fuelled worker for `re_line_reference.sub(replace_line_reference, line)`:
scan left to right, replacing each non-overlapping match.  The fuel is
always at least the input length, so the `0, cs` fallback is never
reached from `subRefs`. -/
def subRefsGo (sources : List Str) : Nat → Str → Str
  | _, [] => []
  | 0, cs => cs
  | f + 1, c :: cs =>
    match tempRefMatch (c :: cs) with
    | some p => replaceRef sources p.1 ++ subRefsGo sources f p.2
    | none => c :: subRefsGo sources f cs

/-- `re_line_reference.sub(replace_line_reference, line)`. -/
def subRefs (sources : List Str) (cs : Str) : Str :=
  subRefsGo sources cs.length cs

/-- `'#: '`, the catalog reference-comment marker. -/
def refMark : Str := "#: ".data

/-- `'#, python-format'`. -/
def pfMark : Str := "#, python-format".data

/-- `'#~ '`, the obsolete-entry marker. -/
def tildeMark : Str := "#~ ".data

/-- `'#~ msgid '`. -/
def tildeMsgidMark : Str := "#~ msgid ".data

/-- First line of `obsolete_warning`. -/
def OBS_W1 : Str := "#. Obsolete translation kept alive\n".data

/-- Second line of `obsolete_warning`. -/
def OBS_W2 : Str := "#: obsolete:0\n".data

/-- Python substring containment `needle in hay`. -/
def hasSub (needle : Str) : Str → Bool
  | [] => needle.isEmpty
  | c :: cs => needle.isPrefixOf (c :: cs) || hasSub needle cs

/-- `re.sub(r'^#~ ', '', line)`: strip one leading `'#~ '` if present. -/
def stripTilde (l : Str) : Str :=
  if tildeMark.isPrefixOf l then l.drop 3 else l

/-- One iteration of the `for line in po_file` loop of
`update_po_references`: given the current `last_line` and the input line,
return the lines appended to `new_contents` and the new `last_line`.
The two `continue` statements skip the `last_line = line` assignment, so
a removed line leaves `last_line` unchanged; an obsolete line stripped of
its `'#~ '` prefix stores the stripped form (the source reassigns
`line`). -/
def lineStep (keepObs : Bool) (sources : List Str) (last line : Str) :
    List Str × Str :=
  if refMark.isPrefixOf line then
    ([subRefs sources line], line)
  else if pfMark.isPrefixOf line && refMark.isPrefixOf last
      && hasSub TEMP_FILE_NAME last then
    ([], last)
  else if keepObs && (line == OBS_W1 || line == OBS_W2) then
    ([], last)
  else
    let ins := if keepObs && tildeMsgidMark.isPrefixOf line then [OBS_W1, OBS_W2] else []
    let line2 := if keepObs && tildeMark.isPrefixOf line then stripTilde line else line
    (ins ++ [line2], line2)

/-- The whole `for line in po_file` loop, threading `last_line`. -/
def processLines (keepObs : Bool) (sources : List Str) :
    Str → List Str → List Str
  | _, [] => []
  | last, line :: rest =>
    let s := lineStep keepObs sources last line
    s.1 ++ processLines keepObs sources s.2 rest

/-- Rewriting one catalog file: the loop starts with `last_line = ''`. -/
def updatePoFile (keepObs : Bool) (sources : List Str) (lines : List Str) :
    List Str :=
  processLines keepObs sources [] lines

/-! ## `handle`: the pipeline -/

/-- The externally observable actions of `Command.handle`. -/
inductive Ev where
  | createTemp
  | runExtractor
  | unlinkTemp
  | rewriteRefs
deriving DecidableEq, Repr

/-- Outcome of one run of `Command.handle`. -/
structure HandleRun where
  trace : List Ev
  raised : Bool
deriving DecidableEq, Repr

/-- `Command.handle`.  `dataMessages` is the value of
`options['no-data-messages']` (confusingly named in the source: it
defaults to `True` and the `--no-data-messages` flag stores `False`);
when it is false, the command just runs the framework extractor.
Otherwise: write the synthetic file, run the extractor inside
`try/finally` (the `finally` unlinks the file unless
`options['keep-data-file']`), and rewrite the catalogs only when the
extractor returned normally; an extractor exception propagates. -/
def handle (dataMessages keepDataFile extractorRaises : Bool) : HandleRun :=
  if dataMessages = false then
    { trace := [Ev.runExtractor], raised := extractorRaises }
  else
    let t := [Ev.createTemp, Ev.runExtractor]
      ++ (if keepDataFile then [] else [Ev.unlinkTemp])
    if extractorRaises then
      { trace := t, raised := true }
    else
      { trace := t ++ [Ev.rewriteRefs], raised := false }

/-! ## `get_po_paths` -/

/-- The filesystem as seen by `get_po_paths`: directory test, `abspath`,
and `os.walk` flattened to the `(dirpath, filename)` pairs it yields
under a root (an absent root yields nothing, as `os.walk` does). -/
structure FS where
  isDir : Str → Bool
  abspath : Str → Str
  walkFiles : Str → List (Str × Str)

/-- `os.path.join` for the relative paths this command builds. -/
def pathJoin (a b : Str) : Str := a ++ "/".data ++ b

/-- `[os.path.join('conf', 'locale'), 'locale']`. -/
def defaultBasedirs : List Str := [pathJoin "conf".data "locale".data, "locale".data]

/-- `os.path.join(basedir, locale, 'LC_MESSAGES')`. -/
def lcMessagesDir (b loc : Str) : Str :=
  pathJoin (pathJoin b loc) "LC_MESSAGES".data

/-- The `.po` files collected by one `os.walk` invocation:
`os.path.join(dirpath, f)` for every yielded `f` ending in `.po`. -/
def poFilesUnder (fs : FS) (root : Str) : List Str :=
  ((fs.walkFiles root).filter (fun df => ".po".data.isSuffixOf df.2)).map
    (fun df => pathJoin df.1 df.2)

/-- The `CommandError` message raised when no base directory exists. -/
def CMD_ERROR_MSG : Str :=
  ("This script should be run from the Django SVN tree or your "
    ++ "project or app tree, or with the settings module specified.").data

/-- `Command.get_po_paths`: filter the candidate base directories to the
existing ones, take their `abspath`s as a set (modelled as `dedup`; the
claims are order-insensitive), raise `CommandError` when the set is
empty, and otherwise collect all `.po` files under
`<basedir>/<locale>/LC_MESSAGES` for each base directory and locale. -/
def getPoPaths (fs : FS) (localePaths : List Str) (locales : List Str) :
    Except Str (List Str) :=
  let bds := (((defaultBasedirs ++ localePaths).filter
      (fun d => fs.isDir d)).map fs.abspath).dedup
  if bds = [] then Except.error CMD_ERROR_MSG
  else Except.ok (bds.flatMap (fun b =>
    locales.flatMap (fun loc => poFilesUnder fs (lcMessagesDir b loc))))

/-- Does the string start with a decimal digit?  (Used to state that a
digit group is maximal.) -/
def digitStart : Str → Bool
  | [] => false
  | c :: _ => c.isDigit

/-- A sample instance used to instantiate theorems on concrete data. -/
def sampleInstance : Instance :=
  ⟨Pk.intPk 1, fun f => if f = "name".data then "a%".data else []⟩

/-- A sample registered model used to instantiate theorems on concrete
data. -/
def sampleModel : ModelReg :=
  ⟨"app".data, "P".data, ["name".data], [], [sampleInstance]⟩

theorem cr_not_mem_removeCR (cs : Str) : '\r' ∉ removeCR cs := by
  intro h
  have := List.of_mem_filter h
  simp at this

theorem mem_doublePercent_of_ne {c : Char} {cs : Str}
    (h : c ∈ doublePercent cs) (hc : c ≠ '%') : c ∈ cs := by
  induction cs with
  | nil => simp [doublePercent] at h
  | cons d ds ih =>
    by_cases hd : d = '%'
    · subst hd
      simp only [doublePercent, if_pos rfl] at h
      rcases List.mem_cons.mp h with h | h
      · exact absurd h hc
      rcases List.mem_cons.mp h with h | h
      · exact absurd h hc
      · exact List.mem_cons_of_mem _ (ih h)
    · simp only [doublePercent, if_neg hd] at h
      rcases List.mem_cons.mp h with h | h
      · exact List.mem_cons.mpr (Or.inl h)
      · exact List.mem_cons_of_mem _ (ih h)

theorem count_pct_doublePercent (cs : Str) :
    (doublePercent cs).count '%' = 2 * cs.count '%' := by
  induction cs with
  | nil => simp [doublePercent]
  | cons d ds ih =>
    by_cases hd : d = '%'
    · subst hd
      simp [doublePercent, List.count_cons, ih]
      omega
    · simp [doublePercent, hd, List.count_cons, ih]

theorem count_pct_removeCR (cs : Str) :
    (removeCR cs).count '%' = cs.count '%' := by
  induction cs with
  | nil => simp [removeCR]
  | cons d ds ih =>
    by_cases hd : d = '\r'
    · subst hd
      simp only [removeCR, List.filter_cons] at *
      simp only [List.count_cons]
      simp [ih]
    · simp only [removeCR, List.filter_cons] at *
      simp [hd, List.count_cons, ih]

theorem sanitize_ne_of_special {v : Str} (h : ('\r' ∈ v) ∨ ('%' ∈ v)) :
    sanitize v ≠ v := by
  intro he
  rcases h with h | h
  · have hn : '\r' ∉ sanitize v := by
      intro hm
      exact cr_not_mem_removeCR v (mem_doublePercent_of_ne hm (by decide))
    rw [he] at hn
    exact hn h
  · have hc : (sanitize v).count '%' = 2 * v.count '%' := by
      unfold sanitize
      rw [count_pct_doublePercent, count_pct_removeCR]
    rw [he] at hc
    have hpos : 0 < v.count '%' := List.count_pos_iff.mpr h
    omega

/-! ## Claim theorems: pipeline (C5, C6) -/

/-- C5: when the data-messages path is taken, the synthetic temp file is
created before the framework extractor runs; unless the keep-data-file
option is set it is deleted after the extractor returns, whether or not
the extractor raised; with the option set it is never deleted. -/
theorem c5_temp_file_lifecycle (dm kdf er : Bool) (hdm : dm = true) :
    [Ev.createTemp, Ev.runExtractor].Sublist (handle dm kdf er).trace ∧
    (kdf = false →
      [Ev.createTemp, Ev.runExtractor, Ev.unlinkTemp].Sublist (handle dm kdf er).trace) ∧
    (kdf = true → Ev.unlinkTemp ∉ (handle dm kdf er).trace) := by
  subst hdm
  cases kdf <;> cases er <;> simp [handle]

theorem c5_temp_file_lifecycle_witness :
    ((true : Bool) = true) ∧
      [Ev.createTemp, Ev.runExtractor, Ev.unlinkTemp].Sublist
        (handle true false true).trace :=
  ⟨rfl, (c5_temp_file_lifecycle true false true rfl).2.1 rfl⟩

/-- C6: the command is a fixed linear pipeline: the trace starts with
creating the synthetic file, the extractor runs next, and the catalog
rewrite happens exactly when the extractor returns without raising, as
the final step; when the extractor raises, no rewrite occurs. -/
theorem c6_pipeline_order (dm kdf er : Bool) (hdm : dm = true) :
    (Ev.rewriteRefs ∈ (handle dm kdf er).trace ↔ er = false) ∧
    (handle dm kdf er).trace.head? = some Ev.createTemp ∧
    [Ev.createTemp, Ev.runExtractor].Sublist (handle dm kdf er).trace ∧
    (er = false → (handle dm kdf er).trace.getLast? = some Ev.rewriteRefs) ∧
    (handle dm kdf er).raised = er := by
  subst hdm
  cases kdf <;> cases er <;> simp [handle]

theorem c6_pipeline_order_witness :
    ((true : Bool) = true) ∧
      (Ev.rewriteRefs ∈ (handle true false true).trace ↔ False) := by
  constructor
  · rfl
  · have h := (c6_pipeline_order true false true rfl).1
    simpa using h

/-! ## Claim theorem: value transformation (C9) -/

/-- C9: every value written into the synthetic file is the stored value
with all carriage returns removed and every `%` doubled; consequently a
stored value containing a carriage return or a percent sign is written in
a form different from the stored value. -/
theorem c9_value_transformed (ms : List ModelReg) (v : Str)
    (hv : v ∈ (createEntries ms).map Entry.value)
    (hc : ('\r' ∈ v) ∨ ('%' ∈ v)) :
    sanitize v ∈ writtenValues ms ∧ sanitize v ≠ v := by
  constructor
  · rcases List.mem_map.mp hv with ⟨e, he, hev⟩
    exact List.mem_map.mpr ⟨e, he, by rw [hev]⟩
  · exact sanitize_ne_of_special hc

theorem c9_value_transformed_witness :
    ("a%".data ∈ (createEntries [sampleModel]).map Entry.value) ∧
    (('\r' ∈ "a%".data) ∨ ('%' ∈ "a%".data)) ∧
    sanitize "a%".data ≠ "a%".data := by
  refine ⟨by decide, by decide, ?_⟩
  exact (c9_value_transformed [sampleModel] "a%".data (by decide) (by decide)).2

/-! ## Lemmas about `create_tmp_file` (for C2, C8) -/

theorem procInstFields_seen (mn : Str) (idn : Int) (inst : Instance) :
    ∀ (fs : List Str) (seen : List Str) (x : Str),
      x ∈ (procInstFields mn idn inst fs seen).2 ↔
        x ∈ (procInstFields mn idn inst fs seen).1.map Entry.value ∨ x ∈ seen := by
  intro fs
  induction fs with
  | nil => intro seen x; simp [procInstFields]
  | cons f fs ih =>
    intro seen x
    by_cases hc : inst.attr f ≠ [] ∧ inst.attr f ∉ seen
    · simp only [procInstFields, if_pos hc, List.map_cons, List.mem_cons]
      rw [ih]
      constructor
      · rintro (h | h)
        · exact Or.inl (Or.inr h)
        · rcases List.mem_cons.mp h with h | h
          · exact Or.inl (Or.inl h)
          · exact Or.inr h
      · rintro (h | h)
        · rcases h with h | h
          · exact Or.inr (List.mem_cons.mpr (Or.inl h))
          · exact Or.inl h
        · exact Or.inr (List.mem_cons.mpr (Or.inr h))
    · simp only [procInstFields, if_neg hc]
      exact ih seen x

theorem procInstFields_sound (mn : Str) (idn : Int) (inst : Instance) :
    ∀ (fs : List Str) (seen : List Str) (v : Str),
      v ∈ (procInstFields mn idn inst fs seen).1.map Entry.value ↔
        (v ∉ seen ∧ v ≠ [] ∧ ∃ f ∈ fs, inst.attr f = v) := by
  intro fs
  induction fs with
  | nil => intro seen v; simp [procInstFields]
  | cons f fs ih =>
    intro seen v
    by_cases hc : inst.attr f ≠ [] ∧ inst.attr f ∉ seen
    · simp only [procInstFields, if_pos hc, List.map_cons]
      constructor
      · intro hmem
        rcases List.mem_cons.mp hmem with h | h
        · subst h
          exact ⟨hc.2, hc.1, f, List.mem_cons_self _ _, rfl⟩
        · obtain ⟨h1, h2, g, hg, hgv⟩ := (ih (inst.attr f :: seen) v).mp h
          exact ⟨fun hs => h1 (List.mem_cons_of_mem _ hs), h2,
            g, List.mem_cons_of_mem _ hg, hgv⟩
      · rintro ⟨h1, h2, g, hg, hgv⟩
        rcases List.mem_cons.mp hg with hgf | hgf
        · subst hgf
          exact List.mem_cons.mpr (Or.inl hgv.symm)
        · by_cases hvf : v = inst.attr f
          · exact List.mem_cons.mpr (Or.inl hvf)
          · refine List.mem_cons.mpr (Or.inr ((ih _ v).mpr ⟨?_, h2, g, hgf, hgv⟩))
            intro hs
            rcases List.mem_cons.mp hs with hs | hs
            · exact hvf hs
            · exact h1 hs
    · simp only [procInstFields, if_neg hc]
      rw [ih]
      push_neg at hc
      constructor
      · rintro ⟨h1, h2, g, hg, hgv⟩
        exact ⟨h1, h2, g, List.mem_cons_of_mem _ hg, hgv⟩
      · rintro ⟨h1, h2, g, hg, hgv⟩
        rcases List.mem_cons.mp hg with hgf | hgf
        · subst hgf
          rw [hgv] at hc
          by_cases hvn : v = []
          · exact absurd hvn h2
          · exact absurd (hc hvn) h1
        · exact ⟨h1, h2, g, hgf, hgv⟩

theorem procInstFields_nodup (mn : Str) (idn : Int) (inst : Instance) :
    ∀ (fs : List Str) (seen : List Str),
      ((procInstFields mn idn inst fs seen).1.map Entry.value).Nodup := by
  intro fs
  induction fs with
  | nil => intro seen; simp [procInstFields]
  | cons f fs ih =>
    intro seen
    by_cases hc : inst.attr f ≠ [] ∧ inst.attr f ∉ seen
    · simp only [procInstFields, if_pos hc, List.map_cons]
      refine List.nodup_cons.mpr ⟨fun hmem => ?_, ih _⟩
      have := (procInstFields_sound mn idn inst fs (inst.attr f :: seen)
        (inst.attr f)).mp hmem
      exact this.1 (List.mem_cons_self _ _)
    · simp only [procInstFields, if_neg hc]
      exact ih seen

theorem procInstances_seen (mn : Str) (fls : List Str) :
    ∀ (is : List Instance) (seen : List Str) (x : Str),
      x ∈ (procInstances mn fls is seen).2 ↔
        x ∈ (procInstances mn fls is seen).1.map Entry.value ∨ x ∈ seen := by
  intro is
  induction is with
  | nil => intro seen x; simp [procInstances]
  | cons i is ih =>
    intro seen x
    simp only [procInstances, List.map_append, List.mem_append]
    rw [ih, procInstFields_seen]
    tauto

theorem procInstances_sound (mn : Str) (fls : List Str) :
    ∀ (is : List Instance) (seen : List Str) (v : Str),
      v ∈ (procInstances mn fls is seen).1.map Entry.value ↔
        (v ∉ seen ∧ v ≠ [] ∧ ∃ i ∈ is, ∃ f ∈ fls, i.attr f = v) := by
  intro is
  induction is with
  | nil => intro seen v; simp [procInstances]
  | cons i is ih =>
    intro seen v
    simp only [procInstances, List.map_append, List.mem_append]
    rw [ih, procInstFields_sound, procInstFields_seen, procInstFields_sound]
    constructor
    · rintro (⟨h1, h2, g, hg, hgv⟩ | ⟨h1, h2, j, hj, g, hg, hgv⟩)
      · exact ⟨h1, h2, i, List.mem_cons_self _ _, g, hg, hgv⟩
      · have hs : v ∉ seen := fun hx => h1 (Or.inr hx)
        exact ⟨hs, h2, j, List.mem_cons_of_mem _ hj, g, hg, hgv⟩
    · rintro ⟨h1, h2, j, hj, g, hg, hgv⟩
      by_cases hfirst : v ∉ seen ∧ v ≠ [] ∧ ∃ f ∈ fls, i.attr f = v
      · exact Or.inl hfirst
      · rcases List.mem_cons.mp hj with hji | hji
        · subst hji
          exact absurd ⟨h1, h2, g, hg, hgv⟩ hfirst
        · refine Or.inr ⟨?_, h2, j, hji, g, hg, hgv⟩
          rintro (hx | hx)
          · exact hfirst ⟨h1, h2, hx.2.2⟩
          · exact h1 hx

theorem procInstances_nodup (mn : Str) (fls : List Str) :
    ∀ (is : List Instance) (seen : List Str),
      ((procInstances mn fls is seen).1.map Entry.value).Nodup := by
  intro is
  induction is with
  | nil => intro seen; simp [procInstances]
  | cons i is ih =>
    intro seen
    simp only [procInstances, List.map_append]
    refine List.Nodup.append (procInstFields_nodup mn (pkToId i.pk) i fls seen)
      (ih _) ?_
    intro v hv1 hv2
    have h2 := (procInstances_sound mn fls is _ v).mp hv2
    have h1 := (procInstFields_seen mn (pkToId i.pk) i fls seen v).mpr (Or.inl hv1)
    exact h2.1 h1

/-- C2: for one registered model, the recorded values are exactly the
distinct non-empty values of its registered fields and properties over
its instances: no recorded value is empty, no value is recorded twice,
and a value is recorded exactly when it is non-empty and occurs in some
registered field or property of some instance. -/
theorem c2_distinct_nonempty_values (m : ModelReg) :
    (∀ e ∈ processModel m, e.value ≠ []) ∧
    ((processModel m).map Entry.value).Nodup ∧
    (∀ v : Str, v ∈ (processModel m).map Entry.value ↔
      (v ≠ [] ∧ ∃ i ∈ m.instances, ∃ f ∈ allFields m, i.attr f = v)) := by
  refine ⟨?_, procInstances_nodup _ _ _ _, ?_⟩
  · intro e he
    have : e.value ∈ (processModel m).map Entry.value :=
      List.mem_map.mpr ⟨e, he, rfl⟩
    exact ((procInstances_sound _ _ _ _ _).mp this).2.1
  · intro v
    rw [processModel, procInstances_sound]
    simp

theorem c2_distinct_nonempty_values_witness :
    ((⟨"app.P".data, "name".data, 1, "a%".data⟩ : Entry)
        ∈ processModel sampleModel) ∧
      (⟨"app.P".data, "name".data, 1, "a%".data⟩ : Entry).value ≠ [] :=
  ⟨by decide, (c2_distinct_nonempty_values sampleModel).1 _ (by decide)⟩

/-- C3 counterexample: the claim predicts that a `#, python-format` line
is preserved whenever the immediately preceding catalog line is not a
`#: ` reference line mentioning the temp file.  In this concrete file the
third line's immediate predecessor is itself a `#, python-format` line
(removal skips the `last_line` update), yet the third line is removed:
the output contains no `#, python-format` line at all. -/
theorem c3_counterexample :
    updatePoFile false [[], [], [], "app.Product/name:1".data]
      ["#: makemessages-temp-file.py:3\n".data, "#, python-format\n".data,
        "#, python-format\n".data]
      = ["#: app.Product/name:1\n".data] ∧
    refMark.isPrefixOf "#, python-format\n".data = false ∧
    pfMark.isPrefixOf "#, python-format\n".data = true := by
  refine ⟨by decide, by decide, by decide⟩

/-- C3 (amended): a line beginning with `#, python-format` is removed if
and only if the rewriter's tracked previous line — the most recent input
line not itself removed by the rewriting (initially empty; an obsolete
line stripped of `#~ ` is tracked in stripped form) — begins with `#: `
and contains the temp file name; any other line beginning with
`#, python-format` is written back unchanged, and a removed line leaves
the tracked previous line unchanged. -/
theorem c3_amended_pf_removal (keepObs : Bool) (sources : List Str)
    (last line : Str) (hpf : pfMark.isPrefixOf line = true) :
    lineStep keepObs sources last line =
      if refMark.isPrefixOf last && hasSub TEMP_FILE_NAME last
      then ([], last) else ([line], line) := by
  obtain ⟨t, rfl⟩ := List.isPrefixOf_iff_prefix.mp hpf
  have h1 : refMark.isPrefixOf (pfMark ++ t) = false := rfl
  have h2 : pfMark.isPrefixOf (pfMark ++ t) = true := by
    rw [List.isPrefixOf_iff_prefix]
    exact List.prefix_append _ _
  have h3 : ((pfMark ++ t) == OBS_W1) = false := rfl
  have h4 : ((pfMark ++ t) == OBS_W2) = false := rfl
  have h5 : tildeMsgidMark.isPrefixOf (pfMark ++ t) = false := rfl
  have h6 : tildeMark.isPrefixOf (pfMark ++ t) = false := rfl
  cases hc : (refMark.isPrefixOf last && hasSub TEMP_FILE_NAME last) with
  | true => simp [lineStep, h1, h2, hc]
  | false => simp [lineStep, h1, h2, hc, h3, h4, h5, h6]

theorem c3_amended_pf_removal_witness :
    (pfMark.isPrefixOf "#, python-format\n".data = true) ∧
      lineStep false [] "#: makemessages-temp-file.py:4\n".data
        "#, python-format\n".data
      = (if refMark.isPrefixOf "#: makemessages-temp-file.py:4\n".data
            && hasSub TEMP_FILE_NAME "#: makemessages-temp-file.py:4\n".data
        then (([] : List Str), "#: makemessages-temp-file.py:4\n".data)
        else (["#, python-format\n".data], "#, python-format\n".data)) :=
  ⟨by decide, c3_amended_pf_removal false [] _ _ (by decide)⟩

/-! ## Claim theorem: the keep-obsolete bug (C4) -/

/-- C4 (code bug): the claim — following the source's own comment, "Don't
preserve old obsolete warnings we inserted" — says both warning lines
inserted by a previous run are removed.  The code removes
`#. Obsolete translation kept alive` but never removes `#: obsolete:0`:
that line begins with `#: ` and is consumed by the reference branch
before the removal check is reached.  At this concrete input (a catalog
already carrying both warnings before an obsolete entry), the rewritten
file retains the old `#: obsolete:0` and inserts a second copy. -/
theorem c4_obsolete_marker_kept :
    updatePoFile true [[], [], []]
      ["#. Obsolete translation kept alive\n".data, "#: obsolete:0\n".data,
        "#~ msgid \"x\"\n".data]
      = ["#: obsolete:0\n".data, OBS_W1, OBS_W2, "msgid \"x\"\n".data] ∧
    (updatePoFile true [[], [], []]
      ["#. Obsolete translation kept alive\n".data, "#: obsolete:0\n".data,
        "#~ msgid \"x\"\n".data]).count "#: obsolete:0\n".data = 2 := by
  refine ⟨by decide, by decide⟩

/-! ## Lemmas about the reference substitution (C1) -/

theorem tempRefMatch_some_lt {cs ds rest : Str}
    (h : tempRefMatch cs = some (ds, rest)) : rest.length < cs.length := by
  unfold tempRefMatch at h
  by_cases hp : tempPat.isPrefixOf cs = true
  · rw [if_pos hp] at h
    by_cases hd : (cs.drop tempPat.length).takeWhile Char.isDigit = []
    · rw [if_pos hd] at h
      exact absurd h (by simp)
    · rw [if_neg hd] at h
      have hds : (cs.drop tempPat.length).takeWhile Char.isDigit = ds ∧
          (cs.drop tempPat.length).dropWhile Char.isDigit = rest := by
        have := Option.some.inj h
        exact ⟨congrArg Prod.fst this, congrArg Prod.snd this⟩
      have hsplit : ds ++ rest = cs.drop tempPat.length := by
        rw [← hds.1, ← hds.2]
        exact List.takeWhile_append_dropWhile _ _
      have hlen : tempPat.length ≤ cs.length :=
        (List.isPrefixOf_iff_prefix.mp hp).length_le
      have hlen2 : (cs.drop tempPat.length).length = cs.length - tempPat.length :=
        List.length_drop _ _
      have hdsne : ds ≠ [] := by rw [← hds.1]; exact hd
      have hdspos : 0 < ds.length := List.length_pos.mpr hdsne
      have hpat : 0 < tempPat.length := by decide
      have := congrArg List.length hsplit
      rw [List.length_append, hlen2] at this
      omega
  · rw [if_neg hp] at h
    exact absurd h (by simp)

theorem subRefsGo_cons_none {sources : List Str} {f : Nat} {c : Char} {cs : Str}
    (h : tempRefMatch (c :: cs) = none) :
    subRefsGo sources (f + 1) (c :: cs) = c :: subRefsGo sources f cs := by
  simp only [subRefsGo, h]

theorem subRefsGo_cons_some {sources : List Str} {f : Nat} {c : Char}
    {cs ds rest : Str} (h : tempRefMatch (c :: cs) = some (ds, rest)) :
    subRefsGo sources (f + 1) (c :: cs)
      = replaceRef sources ds ++ subRefsGo sources f rest := by
  simp only [subRefsGo, h]

theorem subRefsGo_fuel (sources : List Str) :
    ∀ (f g : Nat) (cs : Str), cs.length ≤ f → cs.length ≤ g →
      subRefsGo sources f cs = subRefsGo sources g cs := by
  intro f
  induction f with
  | zero =>
    intro g cs hf _
    have : cs = [] := List.eq_nil_of_length_eq_zero (Nat.le_zero.mp hf)
    subst this
    cases g <;> rfl
  | succ f ih =>
    intro g cs hf hg
    cases cs with
    | nil => cases g <;> rfl
    | cons c cs' =>
      cases g with
      | zero => simp at hg
      | succ g' =>
        cases hm : tempRefMatch (c :: cs') with
        | none =>
          have hf' : cs'.length ≤ f := by simp at hf; omega
          have hg' : cs'.length ≤ g' := by simp at hg; omega
          rw [subRefsGo_cons_none hm, subRefsGo_cons_none hm, ih g' cs' hf' hg']
        | some p =>
          have hlt : p.2.length < (c :: cs').length := tempRefMatch_some_lt (by rw [hm])
          have hf' : p.2.length ≤ f := by simp at hlt hf; omega
          have hg' : p.2.length ≤ g' := by simp at hlt hg; omega
          rw [subRefsGo_cons_some (by rw [hm]), subRefsGo_cons_some (by rw [hm]),
            ih g' p.2 hf' hg']

theorem subRefs_match {sources : List Str} {cs ds rest : Str}
    (h : tempRefMatch cs = some (ds, rest)) :
    subRefs sources cs = replaceRef sources ds ++ subRefs sources rest := by
  cases cs with
  | nil =>
    rw [show tempRefMatch [] = none from rfl] at h
    exact absurd h (by simp)
  | cons c cs' =>
    show subRefsGo sources (cs'.length + 1) (c :: cs') = _
    rw [subRefsGo_cons_some h]
    have hlt : rest.length < (c :: cs').length := tempRefMatch_some_lt h
    have he : subRefsGo sources cs'.length rest = subRefsGo sources rest.length rest := by
      refine subRefsGo_fuel sources _ _ rest ?_ (le_refl _)
      simp at hlt
      omega
    rw [he]
    rfl

theorem subRefs_skip {sources : List Str} {c : Char} {cs : Str}
    (h : tempRefMatch (c :: cs) = none) :
    subRefs sources (c :: cs) = c :: subRefs sources cs := by
  show subRefsGo sources (cs.length + 1) (c :: cs) = _
  rw [subRefsGo_cons_none h]
  rfl

theorem subRefs_append_of_no_match (sources : List Str) :
    ∀ (pre rest : Str),
      (∀ i, i < pre.length → tempRefMatch ((pre ++ rest).drop i) = none) →
      subRefs sources (pre ++ rest) = pre ++ subRefs sources rest := by
  intro pre
  induction pre with
  | nil => intro rest _; rfl
  | cons c pre' ih =>
    intro rest h
    have h0 : tempRefMatch (c :: (pre' ++ rest)) = none := by
      have := h 0 (Nat.succ_pos _)
      simpa using this
    have hrest : ∀ i, i < pre'.length → tempRefMatch ((pre' ++ rest).drop i) = none := by
      intro i hi
      have := h (i + 1) (Nat.succ_lt_succ hi)
      simpa using this
    rw [List.cons_append, subRefs_skip h0, ih rest hrest, List.cons_append]

theorem takeWhile_digits (ds rest : Str) (hds : ∀ c ∈ ds, c.isDigit = true)
    (hrest : digitStart rest = false) :
    (ds ++ rest).takeWhile Char.isDigit = ds ∧
    (ds ++ rest).dropWhile Char.isDigit = rest := by
  induction ds with
  | nil =>
    cases rest with
    | nil => exact ⟨rfl, rfl⟩
    | cons r rs =>
      simp only [digitStart] at hrest
      simp [List.takeWhile_cons, List.dropWhile_cons, hrest]
  | cons d ds' ih =>
    have hd := hds d (List.mem_cons_self _ _)
    have ihh := ih (fun c hc => hds c (List.mem_cons_of_mem _ hc))
    simp [List.takeWhile_cons, List.dropWhile_cons, hd, ihh.1, ihh.2]

theorem tempRefMatch_at_ref (ds rest : Str) (hne : ds ≠ [])
    (hds : ∀ c ∈ ds, c.isDigit = true) (hrest : digitStart rest = false) :
    tempRefMatch (tempPat ++ (ds ++ rest)) = some (ds, rest) := by
  have hp : tempPat.isPrefixOf (tempPat ++ (ds ++ rest)) = true := by
    rw [List.isPrefixOf_iff_prefix]
    exact List.prefix_append _ _
  have hdrop : (tempPat ++ (ds ++ rest)).drop tempPat.length = ds ++ rest :=
    List.drop_left _ _
  obtain ⟨ht, hd⟩ := takeWhile_digits ds rest hds hrest
  simp [tempRefMatch, hp, hdrop, ht, hd, hne]

theorem pyFileSources_length (ms : List ModelReg) :
    (pyFileSources ms).length = (createEntries ms).length + 3 := by
  simp [pyFileSources]

theorem pyFileSources_get (ms : List ModelReg) (k : Nat)
    (hk : k < (createEntries ms).length)
    (h3 : k + 3 < (pyFileSources ms).length) :
    (pyFileSources ms).get ⟨k + 3, h3⟩
      = ((createEntries ms).get ⟨k, hk⟩).source := by
  show ((createEntries ms).map Entry.source).get
      ⟨k, by simpa [pyFileSources] using h3⟩ = _
  simp [List.get_eq_getElem, List.getElem_map]

/-! ## Claim theorem: reference replacement (C1) -/

/-- C1: on a `#: ` catalog line, a reference `makemessages-temp-file.py:N`
whose digits denote `N = k + 3` — the synthetic-file line carrying the
`k`-th database string — is replaced by the reference recorded for that
string in `po_file_sources`, namely the `model/field:id` source of the
`k`-th recorded entry; the surrounding text is kept and the rest of the
line is processed the same way.  The hypotheses say the highlighted match
is a real match: no match starts inside the preceding text, and the digit
group is maximal. -/
theorem c1_line_refs_replaced (models : List ModelReg) (k : Nat)
    (hk : k < (createEntries models).length)
    (keepObs : Bool) (last : Str) (pre post ds : Str)
    (hne : ds ≠ []) (hds : ∀ c ∈ ds, c.isDigit = true)
    (hn : digitsToNat ds = k + 3)
    (hpost : digitStart post = false)
    (hpre : ∀ i, i < (refMark ++ pre).length →
      tempRefMatch (((refMark ++ pre) ++ (tempPat ++ (ds ++ post))).drop i) = none) :
    lineStep keepObs (pyFileSources models) last
        ((refMark ++ pre) ++ (tempPat ++ (ds ++ post)))
      = ([(refMark ++ pre) ++ (((createEntries models).get ⟨k, hk⟩).source
            ++ subRefs (pyFileSources models) post)],
          (refMark ++ pre) ++ (tempPat ++ (ds ++ post))) := by
  have h3 : k + 3 < (pyFileSources models).length := by
    rw [pyFileSources_length]
    omega
  have href : refMark.isPrefixOf ((refMark ++ pre) ++ (tempPat ++ (ds ++ post))) = true := by
    rw [List.isPrefixOf_iff_prefix, List.append_assoc]
    exact List.prefix_append _ _
  have hrep : replaceRef (pyFileSources models) ds
      = ((createEntries models).get ⟨k, hk⟩).source := by
    unfold replaceRef
    simp only [hn]
    rw [dif_pos h3]
    exact pyFileSources_get models k hk h3
  have hsub : subRefs (pyFileSources models)
      ((refMark ++ pre) ++ (tempPat ++ (ds ++ post)))
      = (refMark ++ pre) ++ (((createEntries models).get ⟨k, hk⟩).source
          ++ subRefs (pyFileSources models) post) := by
    rw [subRefs_append_of_no_match _ _ _ hpre,
      subRefs_match (tempRefMatch_at_ref ds post hne hds hpost), hrep]
  unfold lineStep
  rw [if_pos href, hsub]

theorem c1_line_refs_replaced_witness :
    (digitsToNat "3".data = 0 + 3) ∧
    (∀ i, i < (refMark ++ ([] : Str)).length →
      tempRefMatch (((refMark ++ ([] : Str))
        ++ (tempPat ++ ("3".data ++ "\n".data))).drop i) = none) ∧
    lineStep false (pyFileSources [sampleModel]) []
        ((refMark ++ ([] : Str)) ++ (tempPat ++ ("3".data ++ "\n".data)))
      = ([(refMark ++ ([] : Str))
            ++ (((createEntries [sampleModel]).get ⟨0, by decide⟩).source
              ++ subRefs (pyFileSources [sampleModel]) "\n".data)],
          (refMark ++ ([] : Str)) ++ (tempPat ++ ("3".data ++ "\n".data))) :=
  ⟨by decide, by decide,
    c1_line_refs_replaced [sampleModel] 0 (by decide) false [] [] "\n".data "3".data
      (by decide) (by decide) (by decide) (by decide) (by decide)⟩

/-! ## Lemmas about `get_po_paths` (C10) -/

theorem mem_poFilesUnder {fs : FS} {root p : Str} :
    p ∈ poFilesUnder fs root ↔
      ∃ df ∈ fs.walkFiles root,
        ".po".data.isSuffixOf df.2 = true ∧ p = pathJoin df.1 df.2 := by
  unfold poFilesUnder
  simp only [List.mem_map, List.mem_filter]
  constructor
  · rintro ⟨df, ⟨hw, hs⟩, hp⟩
    exact ⟨df, hw, hs, hp.symm⟩
  · rintro ⟨df, hw, hs, hp⟩
    exact ⟨df, ⟨hw, hs⟩, hp.symm⟩

/-! ## Claim theorem: locating the catalog files (C10) -/

/-- C10: `get_po_paths` raises `CommandError` exactly when none of
`conf/locale`, `locale`, and the configured `LOCALE_PATHS` entries is an
existing directory; otherwise the returned paths are exactly the files
ending in `.po` found by walking `<basedir>/<locale>/LC_MESSAGES` for
every existing base directory (taken by absolute path) and every selected
locale. -/
theorem c10_po_paths (fs : FS) (localePaths locales : List Str) :
    ((getPoPaths fs localePaths locales = Except.error CMD_ERROR_MSG) ↔
      ∀ d ∈ defaultBasedirs ++ localePaths, fs.isDir d = false) ∧
    (∀ ps, getPoPaths fs localePaths locales = Except.ok ps →
      ∀ p, p ∈ ps ↔
        ∃ b ∈ defaultBasedirs ++ localePaths, fs.isDir b = true ∧
          ∃ loc ∈ locales, ∃ df ∈ fs.walkFiles (lcMessagesDir (fs.abspath b) loc),
            ".po".data.isSuffixOf df.2 = true ∧ p = pathJoin df.1 df.2) := by
  have hempty :
      ((((defaultBasedirs ++ localePaths).filter (fun d => fs.isDir d)).map
          fs.abspath).dedup = []) ↔
        ∀ d ∈ defaultBasedirs ++ localePaths, fs.isDir d = false := by
    rw [List.dedup_eq_nil, List.map_eq_nil_iff, List.filter_eq_nil_iff]
    simp
  constructor
  · unfold getPoPaths
    by_cases hb : (((defaultBasedirs ++ localePaths).filter
        (fun d => fs.isDir d)).map fs.abspath).dedup = []
    · rw [if_pos hb]
      simp only [true_iff]
      exact hempty.mp hb
    · rw [if_neg hb]
      constructor
      · intro h
        exact absurd h (by simp)
      · intro h
        exact absurd (hempty.mpr h) hb
  · intro ps hps p
    unfold getPoPaths at hps
    by_cases hb : (((defaultBasedirs ++ localePaths).filter
        (fun d => fs.isDir d)).map fs.abspath).dedup = []
    · rw [if_pos hb] at hps
      exact absurd hps (by simp)
    · rw [if_neg hb] at hps
      have hps' := Except.ok.inj hps
      subst hps'
      rw [List.mem_flatMap]
      constructor
      · rintro ⟨b', hb', hmem⟩
        rw [List.mem_dedup, List.mem_map] at hb'
        obtain ⟨b0, hb0, rfl⟩ := hb'
        rw [List.mem_filter] at hb0
        rw [List.mem_flatMap] at hmem
        obtain ⟨loc, hloc, hpo⟩ := hmem
        obtain ⟨df, hw, hsuf, hp⟩ := mem_poFilesUnder.mp hpo
        exact ⟨b0, hb0.1, hb0.2, loc, hloc, df, hw, hsuf, hp⟩
      · rintro ⟨b, hbmem, hdir, loc, hloc, df, hw, hsuf, hp⟩
        refine ⟨fs.abspath b, ?_, ?_⟩
        · rw [List.mem_dedup, List.mem_map]
          exact ⟨b, List.mem_filter.mpr ⟨hbmem, hdir⟩, rfl⟩
        · rw [List.mem_flatMap]
          exact ⟨loc, hloc, mem_poFilesUnder.mpr ⟨df, hw, hsuf, hp⟩⟩

theorem c10_po_paths_witness :
    (getPoPaths
        ⟨fun d => d == "locale".data, fun d => "/p/".data ++ d,
          fun root => if root == "/p/locale/de/LC_MESSAGES".data then
            [("/p/locale/de/LC_MESSAGES".data, "django.po".data)] else []⟩
        [] ["de".data]
      = Except.ok ["/p/locale/de/LC_MESSAGES/django.po".data]) ∧
    ("/p/locale/de/LC_MESSAGES/django.po".data
        ∈ ["/p/locale/de/LC_MESSAGES/django.po".data] ↔
      ∃ b ∈ defaultBasedirs ++ [],
        FS.isDir ⟨fun d => d == "locale".data, fun d => "/p/".data ++ d,
          fun root => if root == "/p/locale/de/LC_MESSAGES".data then
            [("/p/locale/de/LC_MESSAGES".data, "django.po".data)] else []⟩ b = true ∧
        ∃ loc ∈ ["de".data],
          ∃ df ∈ FS.walkFiles ⟨fun d => d == "locale".data, fun d => "/p/".data ++ d,
              fun root => if root == "/p/locale/de/LC_MESSAGES".data then
                [("/p/locale/de/LC_MESSAGES".data, "django.po".data)] else []⟩
            (lcMessagesDir (FS.abspath ⟨fun d => d == "locale".data,
              fun d => "/p/".data ++ d,
              fun root => if root == "/p/locale/de/LC_MESSAGES".data then
                [("/p/locale/de/LC_MESSAGES".data, "django.po".data)] else []⟩ b) loc),
            ".po".data.isSuffixOf df.2 = true ∧
              "/p/locale/de/LC_MESSAGES/django.po".data = pathJoin df.1 df.2) :=
  ⟨by rfl,
    (c10_po_paths
      ⟨fun d => d == "locale".data, fun d => "/p/".data ++ d,
        fun root => if root == "/p/locale/de/LC_MESSAGES".data then
          [("/p/locale/de/LC_MESSAGES".data, "django.po".data)] else []⟩
      [] ["de".data]).2
      ["/p/locale/de/LC_MESSAGES/django.po".data] (by rfl)
      "/p/locale/de/LC_MESSAGES/django.po".data⟩

end Vinaigrette
